import Mathlib

/-!
Shallow embedding of the csvprober Go package (src/prober.go) together with
the parts of its behaviour that depend on the Go standard library
(encoding/csv, bufio, bytes.Buffer, io.TeeReader), which are not part of the
repository and are therefore modelled from the specification.

Modelling conventions:
* Bytes and runes are modelled as Char, byte streams as List Char.
* Go int is modelled as Int, float64 arithmetic is modelled exactly: the
  running mean and the argument of math.Sqrt are kept as exact rationals
  (the field Stddevsq below), and the standard deviation itself is the real
  square root of that rational.  Floating point rounding is not modelled.
* The csv reader is configured with LazyQuotes = true and
  FieldsPerRecord = -1, so no record ever yields a parse error; the probe
  loop nevertheless handles a malformed-record outcome, and so does the
  model (ReadOutcome.malformed).
* The io plumbing is modelled for sources whose content fits into a single
  internal read chunk of the buffered reader (4096 bytes) and that deliver
  all available bytes on each read, e.g. strings.Reader or bytes.Buffer.
  In that regime every fill of the buffered reader pulls the entire
  remaining source, so after the first pass the tee buffer holds exactly
  the original bytes, and every later pass reads the whole buffer and
  appends it back unchanged (the probe code tees the shared buffer into
  itself), which makes the stream seen by passes two onward the infinite
  cyclic repetition of the captured bytes.  A cyclic stream that contains
  no newline never completes a record, so the probe loop never returns;
  the model makes this explicit by returning none.
-/

namespace Csvprober

/-! ## Lines and records of a byte stream

Modelled from the spec: the trial tokenizer (Go encoding/csv, not part of
this repository) is lenient, record boundaries are newline-delimited, blank
lines yield no record, and a record may have a variable number of fields. -/

/-- Splits a character stream into its complete newline-terminated lines
(without the terminating newline) and the trailing fragment after the last
newline; the fragment is empty when the stream ends with a newline. -/
def splitLines : List Char → List (List Char) × List Char
  | [] => ([], [])
  | c :: rest =>
    if c = '\n' then
      ([] :: (splitLines rest).1, (splitLines rest).2)
    else
      match splitLines rest with
      | (l :: ls, f) => ((c :: l) :: ls, f)
      | ([], f) => ([], c :: f)

/-- Complete newline-terminated lines of a stream. -/
def completeLines (data : List Char) : List (List Char) := (splitLines data).1

/-- Trailing fragment of a stream after its last newline. -/
def fragment (data : List Char) : List Char := (splitLines data).2

/-- Records among the complete lines: blank lines are skipped by the
tokenizer and produce no record. -/
def completeRecords (data : List Char) : List (List Char) :=
  (completeLines data).filter (fun l => l ≠ [])

/-- Records of a full parse of the stream up to end-of-stream: the records
among the complete lines, plus the trailing fragment as a final record when
it is nonempty (the lenient tokenizer completes an unterminated final line
at end-of-stream). -/
def eofRecords (data : List Char) : List (List Char) :=
  completeRecords data ++ (if fragment data = [] then [] else [fragment data])

/-- Modelled from the spec: number of fields of one record under a given
delimiter, honouring quoting permissively.  A quote character toggles the
quoted state and a delimiter splits only outside quotes, so a record always
has at least one field. -/
def countFieldsFrom (delim : Char) : List Char → Bool → ℕ
  | [], _ => 1
  | c :: rest, inQ =>
    if c = '"' then countFieldsFrom delim rest (!inQ)
    else if c = delim && !inQ then countFieldsFrom delim rest inQ + 1
    else countFieldsFrom delim rest inQ

/-- Field count of a record line under a given delimiter. -/
def fieldCount (delim : Char) (line : List Char) : ℕ :=
  countFieldsFrom delim line false

/-! ## The input source and one trial pass -/

/-- An abstract readable byte source: it yields data and then terminates,
either normally (end-of-stream) or with a non-end-of-stream read error
(srcErr = true). -/
structure Source where
  data : List Char
  srcErr : Bool
deriving DecidableEq

/-- Outcome of one csv read attempt: a successfully parsed record with its
field count, or a malformed record (a csv parse error, recoverable). -/
inductive ReadOutcome where
  | record (fields : ℕ)
  | malformed
deriving DecidableEq

/-- One trial pass, mirroring the probe loop of src/prober.go lines 103-116:
up to budget read attempts over the available outcomes; a parsed record is
appended to the sample, a malformed record is skipped (it still consumes an
attempt), end-of-stream (outcomes exhausted, term = false) stops the pass
and lowers the budget to the number of attempts made, and a read error
(outcomes exhausted, term = true) aborts the whole probe.  Returns the
field-count sample together with the updated record budget. -/
def trialLoop : ℕ → List ReadOutcome → Bool → Except Unit (List ℕ × ℕ)
  | 0, _, _ => .ok ([], 0)
  | _ + 1, [], false => .ok ([], 0)
  | _ + 1, [], true => .error ()
  | b + 1, .record n :: rest, term =>
    match trialLoop b rest term with
    | .ok (s, b2) => .ok (n :: s, b2 + 1)
    | .error e => .error e
  | b + 1, .malformed :: rest, term =>
    match trialLoop b rest term with
    | .ok (s, b2) => .ok (s, b2 + 1)
    | .error e => .error e

/-- Field counts available from a direct parse of the source under a given
delimiter.  When the source terminates with a read error, the unterminated
final line is consumed while the error surfaces, so only complete records
are available; at end-of-stream the final fragment is completed. -/
def passRecords (src : Source) (delim : Char) : List ℕ :=
  (if src.srcErr then completeRecords src.data else eofRecords src.data).map
    (fieldCount delim)

/-- Read outcomes of the first pass: the csv configuration of the prober
(LazyQuotes, no fixed field count) never produces a parse error, so every
outcome is a parsed record. -/
def passOutcomes (src : Source) (delim : Char) : List ReadOutcome :=
  (passRecords src delim).map .record

/-! ## Statistics (genstatdata, src/prober.go lines 55-75) -/

/-- Box-and-whisker style summary of a field-count sample.  Min through Max
are Go ints; Mean is exact; Stddevsq is the exact value of the argument
passed to math.Sqrt, so the Stddev of the source is its real square root. -/
structure statresults where
  Min : ℤ
  LQ : ℤ
  Median : ℤ
  UQ : ℤ
  Max : ℤ
  Mean : ℚ
  Stddevsq : ℚ
deriving DecidableEq

/-- Standard deviation stored by genstatdata: the square root of the
population variance term.  Kept as a derived real-valued view so that the
rest of the development stays computable. -/
noncomputable def statresults.Stddev (s : statresults) : ℝ :=
  Real.sqrt (s.Stddevsq : ℝ)

/-- Direct translation of genstatdata: sort the sample ascending, read the
five order statistics at the positional indices used by the source (0,
len/4, len/2, len/4*3, len-1), and compute the mean and the population
variance term squaresum/len - mean^2 from the running sums.  The source
panics on an empty sample; here out-of-range reads default to 0 and the
divisions by zero yield 0, and every caller filters empty samples out. -/
def genstatdata (data : List ℤ) : statresults :=
  let d := data.insertionSort (· ≤ ·)
  let n : ℕ := data.length
  let sqsum : ℤ := (d.map (fun x => x * x)).sum
  let mean : ℚ := (d.sum : ℚ) / (n : ℚ)
  { Min := d.getD 0 0
    LQ := d.getD (n / 4) 0
    Median := d.getD (n / 2) 0
    UQ := d.getD (n / 4 * 3) 0
    Max := d.getD (n - 1) 0
    Mean := mean
    Stddevsq := (sqsum : ℚ) / (n : ℚ) - mean * mean }

/-! ## Candidate probabilities and their ordering -/

/-- CSV heterogeneity information about one delimiter trial
(src/prober.go lines 24-28); the statistics are embedded as in Go. -/
structure CSVprobability extends statresults where
  Parsedrecords : ℕ
  Delimiter : Char
deriving DecidableEq

/-- Coefficient-of-variation comparison key, as an exact rational: the
square of Stddev/Mean.  The Less method of the sort interface compares
Stddev/Mean as floats; on the candidates the probe builds, Mean is at least
one and Stddev is nonnegative, so comparing the squares Stddevsq/Mean^2 is
equivalent (the bridge lemma cvLe_iff_cv_le makes this precise). -/
def cvQ (c : CSVprobability) : ℚ := c.Stddevsq / (c.Mean * c.Mean)

/-- Ordering relation used to sort candidates: ascending coefficient of
variation (src/prober.go lines 44-50). -/
def cvLe (a b : CSVprobability) : Prop := cvQ a ≤ cvQ b

instance : DecidableRel cvLe := fun _ _ => inferInstanceAs (Decidable (_ ≤ _))

instance : IsTotal CSVprobability cvLe := ⟨fun a b => le_total (cvQ a) (cvQ b)⟩

instance : IsTrans CSVprobability cvLe :=
  ⟨fun _ _ _ hab hbc => le_trans hab hbc⟩

/-- Coefficient of variation of a candidate as a real number, exactly as
the Less method computes it: standard deviation divided by mean. -/
noncomputable def cv (c : CSVprobability) : ℝ :=
  c.tostatresults.Stddev / (c.Mean : ℝ)

/-- Probe result (src/prober.go lines 30-33). -/
structure CSVProbeResult where
  CSVprobability : List CSVprobability
  ActualLines : ℕ
deriving DecidableEq

/-- Prober configuration (src/prober.go lines 77-80). -/
structure CSVProber where
  RecordstoProbe : ℕ
  Delimiters : List Char
deriving DecidableEq

/-- Default candidate delimiters (src/prober.go line 13). -/
def DefaultDelims : List Char := [',', ';', '#', '|']

/-- Default record budget (src/prober.go line 16). -/
def ProbeRecords : ℕ := 200

/-- NewProber (src/prober.go lines 144-149). -/
def NewProber : CSVProber :=
  { Delimiters := DefaultDelims, RecordstoProbe := ProbeRecords }

/-! ## Replay of the captured buffer (passes two onward) -/

/-- Records seen by a pass that reads the self-teeing capture buffer: the
stream is the infinite cyclic repetition of the buffer content (see the
module comment), of which the pass consumes n records.  The first cycle
contributes the records among the complete lines; afterwards the trailing
fragment glues onto the first line of the next cycle, so the repeating
block is that glued record followed by the records of the remaining
complete lines.  When the buffer is nonempty but contains no newline (or
only blank lines and no fragment) the cyclic stream never completes a
record and the underlying read loop never returns: the result is none.
cyclicBlock is the repeating record block of the cyclic stream. -/
def cyclicBlock (data : List Char) : List (List Char) :=
  if fragment data = [] then completeRecords data
  else (fragment data ++ (completeLines data).headD []) ::
    ((completeLines data).tail.filter (fun l => l ≠ []))

/-- Cyclic record stream, truncated to the n records one pass consumes. -/
def cyclicRecords (data : List Char) (n : ℕ) : Option (List (List Char)) :=
  if n = 0 then some []
  else if data.contains '\n' ∧ cyclicBlock data ≠ [] then
    some ((completeRecords data ++ (List.replicate n (cyclicBlock data)).flatten).take n)
  else none

/-- One pass over the capture buffer (passes two onward).  An empty buffer
ends the pass immediately at end-of-stream, setting the budget to zero;
otherwise the cyclic stream never reaches end-of-stream, so exactly budget
records are consumed and the budget is unchanged, or the read loop never
returns (none). -/
def cyclicPass (buf : List Char) (budget : ℕ) (delim : Char) :
    Option (List ℕ × ℕ) :=
  if buf = [] then some ([], 0)
  else (cyclicRecords buf budget).map
    (fun rs => (rs.map (fieldCount delim), budget))

/-- Condition under which a pass over the capture buffer never returns: the
buffer is nonempty, the budget demands at least one record, and the cyclic
stream never completes a record. -/
def cyclicStuck (buf : List Char) (budget : ℕ) : Prop :=
  buf ≠ [] ∧ budget ≠ 0 ∧ ¬(buf.contains '\n' ∧ cyclicBlock buf ≠ [])

instance (buf : List Char) (budget : ℕ) : Decidable (cyclicStuck buf budget) :=
  inferInstanceAs (Decidable (_ ∧ _ ∧ _))

/-! ## The probe itself (src/prober.go lines 86-141) -/

/-- State threaded through the delimiter loop of Probe: the content of the
shared tee buffer w, the current record budget, and the candidate
probabilities collected so far. -/
structure PassState where
  buf : List Char
  budget : ℕ
  prob : List CSVprobability
deriving DecidableEq

/-- Builds the candidate probability appended for a delimiter whose trial
parsed the given nonempty sample (src/prober.go lines 119-125). -/
def mkProbability (delim : Char) (sample : List ℕ) : CSVprobability :=
  { tostatresults := genstatdata (sample.map Int.ofNat)
    Parsedrecords := sample.length
    Delimiter := delim }

/-- Appends the candidate for one delimiter when its sample is nonempty;
delimiters with an empty sample are dropped entirely. -/
def appendProbability (prob : List CSVprobability) (delim : Char)
    (sample : List ℕ) : List CSVprobability :=
  if sample = [] then prob else prob ++ [mkProbability delim sample]

/-- The delimiter loop of Probe.  The first pass parses the original
source, teeing every byte read into the buffer: with a zero record budget
the inner loop never performs a read at all, so nothing is teed and the
buffer stays as it was (empty); with a positive budget the buffered
reader's first fill pulls the entire (small, eagerly delivered) source, so
the buffer becomes the source data.  Every later pass reads the buffer
teed into itself (cyclicPass).  The outer option is divergence of the
underlying read loop; the inner exception is a propagated source read
error. -/
def runPasses (src : Source) :
    List Char → PassState → Bool → Option (Except Unit PassState)
  | [], st, _ => some (.ok st)
  | d :: ds, st, isFirst =>
    if isFirst then
      match trialLoop st.budget (passOutcomes src d) src.srcErr with
      | .error e => some (.error e)
      | .ok (sample, b2) =>
        runPasses src ds
          { buf := if st.budget = 0 then st.buf else src.data, budget := b2
            prob := appendProbability st.prob d sample } false
    else
      match cyclicPass st.buf st.budget d with
      | none => none
      | some (sample, b2) =>
        runPasses src ds
          { buf := st.buf, budget := b2
            prob := appendProbability st.prob d sample } false

/-- Final pass state of a probe run (exposes the capture buffer). -/
def probeState (p : CSVProber) (src : Source) : Option (Except Unit PassState) :=
  runPasses src p.Delimiters ⟨[], p.RecordstoProbe, []⟩ true

/-- Probe (src/prober.go lines 86-141): run every delimiter pass, sort the
surviving candidates ascending by coefficient of variation, and record the
final budget as ActualLines.  none models a run in which the read loop
never returns; the exception models a propagated source read error (in
which case no probe result is produced). -/
def Probe (p : CSVProber) (src : Source) : Option (Except Unit CSVProbeResult) :=
  (probeState p src).map (fun r =>
    r.map (fun st =>
      { CSVprobability := st.prob.insertionSort cvLe
        ActualLines := st.budget }))

/-! ## Derived views used to state the claims -/

/-- Number of records a pass over the source can deliver before its
terminal condition (delimiter-independent: records are lines). -/
def availableRecords (src : Source) : ℕ :=
  if src.srcErr then (completeRecords src.data).length
  else (eofRecords src.data).length

/-- Record budget remaining after the first pass. -/
def budgetAfter (p : CSVProber) (src : Source) : ℕ :=
  min p.RecordstoProbe (availableRecords src)

/-- Field-count sample of a pass over the capture buffer; empty when the
pass reads nothing or when the read loop diverges. -/
def restSample (buf : List Char) (budget : ℕ) (d : Char) : List ℕ :=
  ((cyclicRecords buf budget).getD []).map (fieldCount d)

/-- Candidate probability contributed by one delimiter of a pass over the
capture buffer, none when its sample is empty. -/
def restCand (buf : List Char) (budget : ℕ) (d : Char) : Option CSVprobability :=
  if restSample buf budget d = [] then none
  else some (mkProbability d (restSample buf budget d))

/-- Field-count sample of the trial at position i of the delimiter list:
position 0 parses the original source directly, every later position
parses the cyclic replay of the capture buffer with the budget left by the
first pass (empty when that replay diverges, a case excluded whenever the
probe returns). -/
def trialSample (p : CSVProber) (src : Source) (i : ℕ) (d : Char) : List ℕ :=
  if i = 0 then (passRecords src d).take p.RecordstoProbe
  else restSample src.data (budgetAfter p src) d

/-- Record count of a single direct parse of a byte stream to
end-of-stream. -/
def directRecordCount (data : List Char) : ℕ := (eofRecords data).length

/-- Modelled from the spec: the total record count recoverable from the
captured replay buffer, that is, the number of records a direct parse of
the buffer content produces.  Named separately from directRecordCount to
state the refinement comparison of the replay contract. -/
def recoverableCount (buf : List Char) : ℕ := (eofRecords buf).length

/-! ## Basic lemmas about the tokenizer and the trial loop -/

lemma countFieldsFrom_pos (delim : Char) :
    ∀ (l : List Char) (inQ : Bool), 1 ≤ countFieldsFrom delim l inQ := by
  intro l
  induction l with
  | nil => intro inQ; simp [countFieldsFrom]
  | cons c rest ih =>
    intro inQ
    simp only [countFieldsFrom]
    split
    · exact ih _
    · split
      · exact le_trans (ih _) (Nat.le_succ _)
      · exact ih _

lemma fieldCount_pos (delim : Char) (l : List Char) : 1 ≤ fieldCount delim l :=
  countFieldsFrom_pos delim l false

/-- Full characterization of the trial loop on a stream of parsed records:
if the budget is covered the loop completes, keeping the budget; otherwise
the loop consumes everything and either stops at end-of-stream, lowering
the budget to the number of records consumed, or propagates the read
error. -/
lemma trialLoop_record_eq (t : Bool) :
    ∀ (b : ℕ) (ns : List ℕ),
      trialLoop b (ns.map .record) t =
        if b ≤ ns.length then .ok (ns.take b, b)
        else if t then .error () else .ok (ns, ns.length)
  | 0, ns => by simp [trialLoop]
  | b + 1, [] => by cases t <;> simp [trialLoop]
  | b + 1, n :: ns => by
    rw [List.map_cons]
    show (match trialLoop b (ns.map .record) t with
      | .ok (s, b2) => Except.ok (n :: s, b2 + 1)
      | .error e => .error e) = _
    rw [trialLoop_record_eq t b ns]
    by_cases h : b ≤ ns.length
    · simp [h, Nat.succ_le_succ h]
    · cases t <;> simp [h, fun hc => h (Nat.le_of_succ_le_succ hc), List.take_of_length_le (le_of_lt (Nat.lt_of_not_le h))]

lemma passRecords_length (src : Source) (d : Char) :
    (passRecords src d).length = availableRecords src := by
  simp only [passRecords, availableRecords]
  split <;> simp

lemma passRecords_mem_pos (src : Source) (d : Char) :
    ∀ x ∈ passRecords src d, 1 ≤ x := by
  intro x hx
  simp only [passRecords, List.mem_map] at hx
  obtain ⟨l, -, rfl⟩ := hx
  exact fieldCount_pos d l

/-- The first pass of Probe, fully characterized. -/
lemma trialLoop_pass (b : ℕ) (src : Source) (d : Char) :
    trialLoop b (passOutcomes src d) src.srcErr =
      if src.srcErr = true ∧ availableRecords src < b then .error ()
      else .ok ((passRecords src d).take b, min b (availableRecords src)) := by
  rw [passOutcomes, trialLoop_record_eq, passRecords_length]
  by_cases h : b ≤ availableRecords src
  · simp [h, Nat.not_lt.mpr h, Nat.min_eq_left h]
  · have hlt := Nat.lt_of_not_le h
    cases hs : src.srcErr <;>
      simp [h, hlt, Nat.min_eq_right (le_of_lt hlt),
        List.take_of_length_le, passRecords_length, le_of_lt hlt]

lemma trialSample_zero (p : CSVProber) (src : Source) (d : Char) :
    trialSample p src 0 d = (passRecords src d).take p.RecordstoProbe := rfl

lemma trialSample_succ (p : CSVProber) (src : Source) (i : ℕ) (d : Char) :
    trialSample p src (i + 1) d = restSample src.data (budgetAfter p src) d := rfl

/-! ## Lemmas about genstatdata -/

lemma gsd_sort_perm (data : List ℤ) :
    (data.insertionSort (· ≤ ·)).Perm data :=
  List.perm_insertionSort _ _

lemma gsd_sort_sorted (data : List ℤ) :
    (data.insertionSort (· ≤ ·)).Sorted (· ≤ ·) :=
  List.sorted_insertionSort _ _

lemma gsd_sort_length (data : List ℤ) :
    (data.insertionSort (· ≤ ·)).length = data.length :=
  (gsd_sort_perm data).length_eq

lemma sorted_getD_mono {l : List ℤ} (hs : l.Sorted (· ≤ ·)) {i j : ℕ}
    (hij : i ≤ j) (hj : j < l.length) : l.getD i 0 ≤ l.getD j 0 := by
  have hi : i < l.length := lt_of_le_of_lt hij hj
  rw [List.getD_eq_get l 0 hi, List.getD_eq_get l 0 hj]
  exact hs.rel_get_of_le hij

lemma getD_mem {l : List ℤ} {i : ℕ} (hi : i < l.length) : l.getD i 0 ∈ l := by
  rw [List.getD_eq_get l 0 hi]
  exact List.get_mem l i hi

lemma genstatdata_Min_eq (data : List ℤ) :
    (genstatdata data).Min = (data.insertionSort (· ≤ ·)).getD 0 0 := rfl

lemma genstatdata_LQ_eq (data : List ℤ) :
    (genstatdata data).LQ =
      (data.insertionSort (· ≤ ·)).getD (data.length / 4) 0 := rfl

lemma genstatdata_Median_eq (data : List ℤ) :
    (genstatdata data).Median =
      (data.insertionSort (· ≤ ·)).getD (data.length / 2) 0 := rfl

lemma genstatdata_UQ_eq (data : List ℤ) :
    (genstatdata data).UQ =
      (data.insertionSort (· ≤ ·)).getD (data.length / 4 * 3) 0 := rfl

lemma genstatdata_Max_eq (data : List ℤ) :
    (genstatdata data).Max =
      (data.insertionSort (· ≤ ·)).getD (data.length - 1) 0 := rfl

lemma genstatdata_Mean_eq (data : List ℤ) :
    (genstatdata data).Mean =
      ((data.insertionSort (· ≤ ·)).sum : ℚ) / (data.length : ℚ) := rfl

lemma genstatdata_Stddevsq_eq (data : List ℤ) :
    (genstatdata data).Stddevsq =
      (((((data.insertionSort (· ≤ ·)).map (fun x => x * x)).sum : ℤ) : ℚ)) /
          (data.length : ℚ) -
        (((data.insertionSort (· ≤ ·)).sum : ℚ) / (data.length : ℚ)) *
          (((data.insertionSort (· ≤ ·)).sum : ℚ) / (data.length : ℚ)) := rfl

lemma genstatdata_min_spec (data : List ℤ) (h : data ≠ []) :
    (genstatdata data).Min ∈ data ∧ ∀ x ∈ data, (genstatdata data).Min ≤ x := by
  have hperm := gsd_sort_perm data
  have hlen : 0 < (data.insertionSort (· ≤ ·)).length := by
    rw [gsd_sort_length]; exact List.length_pos.mpr h
  constructor
  · exact hperm.mem_iff.mp (genstatdata_Min_eq data ▸ getD_mem hlen)
  · intro x hx
    obtain ⟨⟨j, hj⟩, rfl⟩ := List.mem_iff_get.mp (hperm.mem_iff.mpr hx)
    rw [genstatdata_Min_eq, ← List.getD_eq_get _ 0 hj]
    exact sorted_getD_mono (gsd_sort_sorted data) (Nat.zero_le j) hj

lemma genstatdata_max_spec (data : List ℤ) (h : data ≠ []) :
    (genstatdata data).Max ∈ data ∧ ∀ x ∈ data, x ≤ (genstatdata data).Max := by
  have hperm := gsd_sort_perm data
  have hpos : 0 < data.length := List.length_pos.mpr h
  have hidx : data.length - 1 < (data.insertionSort (· ≤ ·)).length := by
    rw [gsd_sort_length]; omega
  constructor
  · exact hperm.mem_iff.mp (genstatdata_Max_eq data ▸ getD_mem hidx)
  · intro x hx
    obtain ⟨⟨j, hj⟩, rfl⟩ := List.mem_iff_get.mp (hperm.mem_iff.mpr hx)
    rw [genstatdata_Max_eq, ← List.getD_eq_get _ 0 hj]
    refine sorted_getD_mono (gsd_sort_sorted data) ?_ hidx
    have := gsd_sort_length data
    omega

lemma genstatdata_chain (data : List ℤ) (h : data ≠ [])
    (hl : data.length = 1 ∨ 4 ≤ data.length) :
    (genstatdata data).Min ≤ (genstatdata data).LQ ∧
    (genstatdata data).LQ ≤ (genstatdata data).Median ∧
    (genstatdata data).Median ≤ (genstatdata data).UQ ∧
    (genstatdata data).UQ ≤ (genstatdata data).Max := by
  have hpos : 0 < data.length := List.length_pos.mpr h
  have hlen := gsd_sort_length data
  have hsort := gsd_sort_sorted data
  rw [genstatdata_Min_eq, genstatdata_LQ_eq, genstatdata_Median_eq,
    genstatdata_UQ_eq, genstatdata_Max_eq]
  refine ⟨sorted_getD_mono hsort (by omega) (by omega),
    sorted_getD_mono hsort (by omega) (by omega),
    sorted_getD_mono hsort (by omega) (by omega),
    sorted_getD_mono hsort (by omega) (by omega)⟩

lemma sorted_perm_eq_sort (data l2 : List ℤ) (hp : l2.Perm data)
    (hs : l2.Sorted (· ≤ ·)) : l2 = data.insertionSort (· ≤ ·) :=
  List.eq_of_perm_of_sorted (hp.trans (gsd_sort_perm data).symm) hs
    (gsd_sort_sorted data)

lemma list_length_le_sum :
    ∀ (l : List ℤ), (∀ x ∈ l, 1 ≤ x) → (l.length : ℤ) ≤ l.sum := by
  intro l
  induction l with
  | nil => simp
  | cons a l ih =>
    intro h
    have ha := h a (List.mem_cons_self a l)
    have hl := ih (fun x hx => h x (List.mem_cons_of_mem a hx))
    simp only [List.sum_cons, List.length_cons]
    push_cast
    linarith

lemma genstatdata_mean_ge_one (data : List ℤ) (h : data ≠ [])
    (h1 : ∀ x ∈ data, 1 ≤ x) : 1 ≤ (genstatdata data).Mean := by
  have hperm := gsd_sort_perm data
  have hn : (0 : ℚ) < (data.length : ℚ) := by
    have := List.length_pos.mpr h
    exact_mod_cast this
  rw [genstatdata_Mean_eq, one_le_div hn, hperm.sum_eq]
  have : (data.length : ℤ) ≤ data.sum := list_length_le_sum data h1
  exact_mod_cast this

lemma two_mul_sum_le (a : ℤ) :
    ∀ (l : List ℤ),
      2 * a * l.sum ≤ (l.length : ℤ) * (a * a) + (l.map (fun x => x * x)).sum := by
  intro l
  induction l with
  | nil => simp
  | cons b l ih =>
    simp only [List.sum_cons, List.map_cons, List.length_cons]
    push_cast
    nlinarith [ih, sq_nonneg (a - b)]

lemma sum_sq_le :
    ∀ (l : List ℤ),
      l.sum * l.sum ≤ (l.length : ℤ) * (l.map (fun x => x * x)).sum := by
  intro l
  induction l with
  | nil => simp
  | cons a l ih =>
    simp only [List.sum_cons, List.map_cons, List.length_cons]
    have h2 := two_mul_sum_le a l
    push_cast
    nlinarith [ih, h2]

lemma genstatdata_var_nonneg (data : List ℤ) (h : data ≠ []) :
    0 ≤ (genstatdata data).Stddevsq := by
  have hn : (0 : ℚ) < (data.length : ℚ) := by
    have := List.length_pos.mpr h
    exact_mod_cast this
  rw [genstatdata_Stddevsq_eq, sub_nonneg]
  set S : ℚ := ((data.insertionSort (· ≤ ·)).sum : ℚ) with hS
  set Q : ℚ :=
    (((((data.insertionSort (· ≤ ·)).map (fun x => x * x)).sum : ℤ)) : ℚ) with hQ
  set n : ℚ := (data.length : ℚ) with hN
  have key : S * S ≤ n * Q := by
    rw [hS, hQ, hN]
    have h0 := sum_sq_le (data.insertionSort (· ≤ ·))
    rw [gsd_sort_length] at h0
    exact_mod_cast h0
  have heq : S / n * (S / n) = S * S / (n * n) := by ring
  rw [heq, div_le_div_iff (mul_pos hn hn) hn]
  nlinarith [key, hn.le]

lemma genstatdata_single_var (x : ℤ) : (genstatdata [x]).Stddevsq = 0 := by
  rw [genstatdata_Stddevsq_eq]
  norm_num [List.insertionSort, List.orderedInsert]

/-! ## Lemmas about the replay passes -/

lemma cyclicRecords_length {data : List Char} {n : ℕ} {rs : List (List Char)}
    (h : cyclicRecords data n = some rs) : rs.length = n := by
  unfold cyclicRecords at h
  by_cases h0 : n = 0
  · simp [h0] at h
    simp [← h, h0]
  · rw [if_neg h0] at h
    split at h
    · rename_i hc
      have hlen : 1 ≤ (cyclicBlock data).length := by
        have := hc.2
        cases hb : cyclicBlock data with
        | nil => exact absurd hb this
        | cons x xs => simp
      have havail : n ≤ (completeRecords data ++
          (List.replicate n (cyclicBlock data)).flatten).length := by
        rw [List.length_append, List.length_flatten, List.map_replicate,
          List.sum_replicate, smul_eq_mul]
        calc n = n * 1 := (Nat.mul_one n).symm
          _ ≤ n * (cyclicBlock data).length := Nat.mul_le_mul_left n hlen
          _ ≤ _ := Nat.le_add_left _ _
      obtain rfl : _ = rs := Option.some.inj h
      rw [List.length_take]
      exact Nat.min_eq_left havail
    · exact absurd h (by simp)

lemma restSample_length {buf : List Char} {budget : ℕ} {d : Char}
    (h : restSample buf budget d ≠ []) :
    (restSample buf budget d).length = budget := by
  unfold restSample at h ⊢
  cases hc : cyclicRecords buf budget with
  | none => rw [hc] at h; simp at h
  | some rs => simp [cyclicRecords_length hc]

lemma restSample_mem_pos (buf : List Char) (budget : ℕ) (d : Char) :
    ∀ x ∈ restSample buf budget d, 1 ≤ x := by
  intro x hx
  simp only [restSample, List.mem_map] at hx
  obtain ⟨l, -, rfl⟩ := hx
  exact fieldCount_pos d l

lemma cyclicPass_none_of_stuck {buf : List Char} {budget : ℕ} (d : Char)
    (h : cyclicStuck buf budget) : cyclicPass buf budget d = none := by
  obtain ⟨hb, hn, hc⟩ := h
  unfold cyclicPass cyclicRecords
  rw [if_neg hb, if_neg hn, if_neg hc]
  rfl

lemma cyclicPass_eq {buf : List Char} {budget : ℕ} (d : Char)
    (hinv : buf = [] → budget = 0) (h : ¬ cyclicStuck buf budget) :
    cyclicPass buf budget d = some (restSample buf budget d, budget) := by
  by_cases hb : buf = []
  · have h0 := hinv hb
    subst h0
    simp [hb, cyclicPass, restSample, cyclicRecords]
  · unfold cyclicPass restSample
    rw [if_neg hb]
    by_cases h0 : budget = 0
    · subst h0
      simp [cyclicRecords]
    · have hc : buf.contains '\n' ∧ cyclicBlock buf ≠ [] := by
        by_contra hcc
        exact h ⟨hb, h0, hcc⟩
      cases hr : cyclicRecords buf budget with
      | none =>
        unfold cyclicRecords at hr
        rw [if_neg h0, if_pos hc] at hr
        exact absurd hr (by simp)
      | some rs => simp

/-- Characterization of the replay passes: under the invariant that an
empty buffer comes with a zero budget, the delimiter loop over the capture
buffer either diverges (buffer stuck and at least one pass left) or
returns the state unchanged except for the candidates collected, one per
delimiter whose cyclic sample is nonempty. -/
lemma runPasses_rest (src : Source) :
    ∀ (ds : List Char) (st : PassState), (st.buf = [] → st.budget = 0) →
      runPasses src ds st false =
        if cyclicStuck st.buf st.budget ∧ ds ≠ [] then none
        else some (.ok ⟨st.buf, st.budget,
          st.prob ++ ds.filterMap (restCand st.buf st.budget)⟩)
  | [], st, hinv => by simp [runPasses]
  | d :: ds, st, hinv => by
    by_cases hstuck : cyclicStuck st.buf st.budget
    · rw [runPasses]
      simp [cyclicPass_none_of_stuck d hstuck, hstuck]
    · rw [runPasses]
      simp only [Bool.false_eq_true, if_false, cyclicPass_eq d hinv hstuck]
      rw [runPasses_rest src ds ⟨st.buf, st.budget,
        appendProbability st.prob d (restSample st.buf st.budget d)⟩ hinv]
      simp only [hstuck, false_and, if_false, ne_eq]
      congr 2
      simp only [appendProbability, restCand, List.filterMap_cons]
      split
      · simp
      · simp [List.append_assoc]

lemma availableRecords_nil {src : Source} (h : src.data = []) :
    availableRecords src = 0 := by
  simp [availableRecords, h, completeRecords, eofRecords, completeLines,
    fragment, splitLines]

lemma probeState_nil (b : ℕ) (src : Source) :
    probeState ⟨b, []⟩ src = some (.ok ⟨[], b, []⟩) := rfl

/-- Characterization of one full probe run with at least one delimiter.
With a zero budget the first pass reads nothing, so the capture buffer
stays empty; otherwise it holds the source data. -/
lemma probeState_cons (b : ℕ) (d : Char) (ds : List Char) (src : Source) :
    probeState ⟨b, d :: ds⟩ src =
      if src.srcErr = true ∧ availableRecords src < b then some (.error ())
      else if cyclicStuck (if b = 0 then [] else src.data)
          (min b (availableRecords src)) ∧ ds ≠ [] then none
      else some (.ok ⟨if b = 0 then [] else src.data,
        min b (availableRecords src),
        appendProbability [] d ((passRecords src d).take b) ++
          ds.filterMap (restCand (if b = 0 then [] else src.data)
            (min b (availableRecords src)))⟩) := by
  have hTL := trialLoop_pass b src d
  by_cases herr : src.srcErr = true ∧ availableRecords src < b
  · rw [if_pos herr] at hTL ⊢
    show (match trialLoop b (passOutcomes src d) src.srcErr with
      | .error e => some (.error e)
      | .ok (sample, b2) =>
        runPasses src ds ⟨if b = 0 then [] else src.data, b2,
          appendProbability [] d sample⟩ false) =
      some (.error ())
    rw [hTL]
  · rw [if_neg herr] at hTL ⊢
    have hinv : (if b = 0 then [] else src.data) = [] →
        min b (availableRecords src) = 0 := by
      intro hd
      by_cases hb : b = 0
      · simp [hb]
      · rw [if_neg hb] at hd
        rw [availableRecords_nil hd]
        exact Nat.min_eq_right (Nat.zero_le b)
    calc probeState ⟨b, d :: ds⟩ src
        = (match trialLoop b (passOutcomes src d) src.srcErr with
          | .error e => some (.error e)
          | .ok (sample, b2) =>
            runPasses src ds ⟨if b = 0 then [] else src.data, b2,
              appendProbability [] d sample⟩ false) := rfl
      _ = runPasses src ds ⟨if b = 0 then [] else src.data,
            min b (availableRecords src),
            appendProbability [] d ((passRecords src d).take b)⟩ false := by
          rw [hTL]
      _ = _ := by
          rw [runPasses_rest src ds ⟨if b = 0 then [] else src.data,
            min b (availableRecords src),
            appendProbability [] d ((passRecords src d).take b)⟩ hinv]

lemma mkProbability_Delimiter (d : Char) (s : List ℕ) :
    (mkProbability d s).Delimiter = d := rfl

lemma mkProbability_Parsedrecords (d : Char) (s : List ℕ) :
    (mkProbability d s).Parsedrecords = s.length := rfl

lemma mkProbability_stats (d : Char) (s : List ℕ) :
    (mkProbability d s).tostatresults = genstatdata (s.map Int.ofNat) := rfl

/-- Every candidate collected by a probe run is built from a nonempty
field-count sample whose counts are at least one and whose length is the
final record budget. -/
lemma probeState_mem {b : ℕ} {d : Char} {ds : List Char} {src : Source}
    {st : PassState} (h : probeState ⟨b, d :: ds⟩ src = some (.ok st)) :
    ∀ c ∈ st.prob, ∃ sample : List ℕ, sample ≠ [] ∧ (∀ x ∈ sample, 1 ≤ x) ∧
      sample.length = st.budget ∧ c = mkProbability c.Delimiter sample := by
  rw [probeState_cons] at h
  set bufN := (if b = 0 then [] else src.data) with hbufN
  split at h
  · exact absurd h (by simp)
  · split at h
    · exact absurd h (by simp)
    · obtain rfl : _ = st := Except.ok.inj (Option.some.inj h)
      intro c hc
      simp only [List.mem_append] at hc
      rcases hc with hc | hc
      · unfold appendProbability at hc
        split at hc
        · simp at hc
        · rename_i hne
          simp only [List.nil_append, List.mem_singleton] at hc
          subst hc
          refine ⟨(passRecords src d).take b, hne, ?_, ?_, rfl⟩
          · intro x hx
            exact passRecords_mem_pos src d x (List.mem_of_mem_take hx)
          · simp [List.length_take, passRecords_length]
      · simp only [List.mem_filterMap] at hc
        obtain ⟨d2, -, hd2⟩ := hc
        unfold restCand at hd2
        split at hd2
        · exact absurd hd2 (by simp)
        · rename_i hne
          obtain rfl : _ = c := Option.some.inj hd2
          exact ⟨restSample bufN (min b (availableRecords src)) d2, hne,
            restSample_mem_pos _ _ _, restSample_length hne, rfl⟩

lemma probe_sample_facts {c : CSVprobability} (sample : List ℕ)
    (hne : sample ≠ []) (h1 : ∀ x ∈ sample, 1 ≤ x)
    (hc : c = mkProbability c.Delimiter sample) :
    1 ≤ c.Mean ∧ 0 ≤ c.Stddevsq := by
  have hmapne : sample.map Int.ofNat ≠ [] := by
    simpa using hne
  have hmap1 : ∀ y ∈ sample.map Int.ofNat, (1 : ℤ) ≤ y := by
    intro y hy
    simp only [List.mem_map] at hy
    obtain ⟨x, hx, rfl⟩ := hy
    rw [Int.ofNat_eq_natCast]
    exact_mod_cast h1 x hx
  have hMean : c.Mean = (genstatdata (sample.map Int.ofNat)).Mean := by
    rw [hc]; rfl
  have hVar : c.Stddevsq = (genstatdata (sample.map Int.ofNat)).Stddevsq := by
    rw [hc]; rfl
  rw [hMean, hVar]
  exact ⟨genstatdata_mean_ge_one _ hmapne hmap1,
    genstatdata_var_nonneg _ hmapne⟩

lemma Probe_ok {p : CSVProber} {src : Source} {res : CSVProbeResult}
    (h : Probe p src = some (.ok res)) :
    ∃ st, probeState p src = some (.ok st) ∧
      res.CSVprobability = st.prob.insertionSort cvLe ∧
      res.ActualLines = st.budget := by
  unfold Probe at h
  cases hps : probeState p src with
  | none => rw [hps] at h; exact absurd h (by simp)
  | some r =>
    rw [hps] at h
    cases r with
    | error e => simp [Except.map] at h
    | ok st =>
      simp only [Option.map_some, Except.map] at h
      obtain h2 := Except.ok.inj (Option.some.inj h)
      exact ⟨st, rfl, by rw [← h2], by rw [← h2]⟩

lemma Probe_error_iff {p : CSVProber} {src : Source} :
    (∃ e, Probe p src = some (.error e)) ↔
      probeState p src = some (.error ()) := by
  unfold Probe
  cases hps : probeState p src with
  | none => simp
  | some r =>
    cases r with
    | error e => cases e; simp [Except.map]
    | ok st => simp [Except.map]

/-- Bridge between the exact rational comparison key and the real-valued
coefficient of variation Stddev/Mean compared by the Less method: on
candidates with positive mean and nonnegative variance term the two
comparisons agree. -/
lemma cv_le_of_cvLe {a c : CSVprobability} (ha1 : 1 ≤ a.Mean)
    (ha2 : 0 ≤ a.Stddevsq) (hc1 : 1 ≤ c.Mean) (hc2 : 0 ≤ c.Stddevsq)
    (h : cvLe a c) : cv a ≤ cv c := by
  have hMaq : (0 : ℚ) < a.Mean := lt_of_lt_of_le one_pos ha1
  have hMcq : (0 : ℚ) < c.Mean := lt_of_lt_of_le one_pos hc1
  have hMa : (0 : ℝ) < (a.Mean : ℝ) := by exact_mod_cast hMaq
  have hMc : (0 : ℝ) < (c.Mean : ℝ) := by exact_mod_cast hMcq
  have hVa : (0 : ℝ) ≤ (a.Stddevsq : ℝ) := by exact_mod_cast ha2
  have hVc : (0 : ℝ) ≤ (c.Stddevsq : ℝ) := by exact_mod_cast hc2
  have hq : (a.Stddevsq : ℝ) * ((c.Mean : ℝ) * (c.Mean : ℝ)) ≤
      (c.Stddevsq : ℝ) * ((a.Mean : ℝ) * (a.Mean : ℝ)) := by
    have h2 : a.Stddevsq / (a.Mean * a.Mean) ≤ c.Stddevsq / (c.Mean * c.Mean) := h
    rw [div_le_div_iff (mul_pos hMaq hMaq) (mul_pos hMcq hMcq)] at h2
    exact_mod_cast h2
  unfold cv statresults.Stddev
  rw [div_le_div_iff hMa hMc]
  calc Real.sqrt (a.Stddevsq : ℝ) * (c.Mean : ℝ)
      = Real.sqrt ((a.Stddevsq : ℝ) * ((c.Mean : ℝ) * (c.Mean : ℝ))) := by
        rw [Real.sqrt_mul hVa, Real.sqrt_mul_self hMc.le]
    _ ≤ Real.sqrt ((c.Stddevsq : ℝ) * ((a.Mean : ℝ) * (a.Mean : ℝ))) :=
        Real.sqrt_le_sqrt hq
    _ = Real.sqrt (c.Stddevsq : ℝ) * (a.Mean : ℝ) := by
        rw [Real.sqrt_mul hVc, Real.sqrt_mul_self hMa.le]

lemma probeState_ok_buf_budget {p : CSVProber} {src : Source} {st : PassState}
    (hne : p.Delimiters ≠ []) (h : probeState p src = some (.ok st)) :
    st.buf = (if p.RecordstoProbe = 0 then [] else src.data) ∧
      st.budget = budgetAfter p src := by
  obtain ⟨b, ds⟩ := p
  cases ds with
  | nil => exact absurd rfl hne
  | cons d ds =>
    show st.buf = (if b = 0 then [] else src.data) ∧
      st.budget = budgetAfter ⟨b, d :: ds⟩ src
    rw [probeState_cons] at h
    set bufN := (if b = 0 then [] else src.data) with hbufN
    split at h
    · exact absurd h (by simp)
    · split at h
      · exact absurd h (by simp)
      · obtain rfl : _ = st := Except.ok.inj (Option.some.inj h)
        exact ⟨rfl, rfl⟩

lemma filterMap_restCand_delims (buf : List Char) (budget : ℕ) :
    ∀ ds : List Char,
      (ds.filterMap (restCand buf budget)).map (fun c => c.Delimiter) =
        ds.filter (fun d2 => restSample buf budget d2 ≠ [])
  | [] => by simp
  | d2 :: ds => by
    have ih := filterMap_restCand_delims buf budget ds
    rw [List.filterMap_cons, List.filter_cons]
    by_cases hd : restSample buf budget d2 = []
    · rw [show restCand buf budget d2 = none from by simp [restCand, hd]]
      simp [hd, ih]
    · rw [show restCand buf budget d2 =
        some (mkProbability d2 (restSample buf budget d2)) from by
          simp [restCand, hd]]
      simp [hd, ih, mkProbability_Delimiter]

lemma enumFrom_filter_trialSample (p : CSVProber) (src : Source) :
    ∀ (ds : List Char) (k : ℕ), k ≠ 0 →
      ((List.enumFrom k ds).filter
        (fun x => trialSample p src x.1 x.2 ≠ [])).map Prod.snd =
      ds.filter (fun d2 => restSample src.data (budgetAfter p src) d2 ≠ [])
  | [], k, hk => by simp
  | d2 :: ds, k, hk => by
    have ih := enumFrom_filter_trialSample p src ds (k + 1) (Nat.succ_ne_zero k)
    rw [List.enumFrom_cons]
    have hts : trialSample p src k d2 =
        restSample src.data (budgetAfter p src) d2 := by
      unfold trialSample
      rw [if_neg hk]
    rw [List.filter_cons, List.filter_cons]
    simp only [hts]
    simp only [ne_eq, decide_not] at ih ⊢
    by_cases hd : restSample src.data (budgetAfter p src) d2 = []
    · simp [hd, ih]
    · simp [hd, ih]

/-- The delimiters of the candidates a probe run collects, in pass order:
exactly the configured delimiters whose trial sample is nonempty. -/
lemma restSample_zero (buf : List Char) (d : Char) : restSample buf 0 d = [] := by
  simp [restSample, cyclicRecords]

/-- With a zero budget the first pass captures nothing, but a zero budget
also makes every replay sample empty, so the replay samples over the
actual capture buffer agree with those over the source data. -/
lemma restSample_ite_eq (b : ℕ) (src : Source) (d2 : Char) :
    restSample (if b = 0 then [] else src.data)
        (min b (availableRecords src)) d2 =
      restSample src.data (min b (availableRecords src)) d2 := by
  by_cases hb : b = 0
  · subst hb
    simp [restSample_zero]
  · rw [if_neg hb]

lemma probeState_delims {b : ℕ} {d : Char} {ds : List Char} {src : Source}
    {st : PassState} (h : probeState ⟨b, d :: ds⟩ src = some (.ok st)) :
    st.prob.map (fun c => c.Delimiter) =
      (((d :: ds).enum.filter
        (fun x => trialSample ⟨b, d :: ds⟩ src x.1 x.2 ≠ [])).map Prod.snd) := by
  rw [probeState_cons] at h
  set bufN := (if b = 0 then [] else src.data) with hbufN
  split at h
  · exact absurd h (by simp)
  · split at h
    · exact absurd h (by simp)
    · obtain rfl : _ = st := Except.ok.inj (Option.some.inj h)
      have h0 : trialSample ⟨b, d :: ds⟩ src 0 d = (passRecords src d).take b := rfl
      have htail := enumFrom_filter_trialSample ⟨b, d :: ds⟩ src ds 1 one_ne_zero
      have hba : budgetAfter ⟨b, d :: ds⟩ src = min b (availableRecords src) := rfl
      rw [hba] at htail
      rw [List.enum_cons, List.filter_cons, List.map_append]
      rw [filterMap_restCand_delims]
      rw [hbufN]
      simp only [restSample_ite_eq]
      simp only [ne_eq, decide_not] at htail ⊢
      by_cases hs1 : (passRecords src d).take b = []
      · simp [appendProbability, hs1, h0, htail]
      · simp [appendProbability, hs1, h0, htail, mkProbability_Delimiter]

lemma probeState_nil_inv {b : ℕ} {src : Source} {st : PassState}
    (h : probeState ⟨b, []⟩ src = some (.ok st)) : st = ⟨[], b, []⟩ :=
  (Except.ok.inj (Option.some.inj ((probeState_nil b src).symm.trans h))).symm

/-! ## Concrete runs used by the witnesses and the test-vector claims -/

/-- Fifty identical records of four comma-separated fields. -/
def uniformInput : List Char := (List.replicate 50 ("a,b,c,d\n".toList)).flatten

/-- Expected comma candidate of the uniform run. -/
def uniComma : CSVprobability := ⟨⟨4, 4, 4, 4, 4, 4, 0⟩, 50, ','⟩

/-- Expected semicolon candidate of the uniform run. -/
def uniSemi : CSVprobability := ⟨⟨1, 1, 1, 1, 1, 1, 0⟩, 50, ';'⟩

/-- Expected result of probing one comma record. -/
def w1res : CSVProbeResult := ⟨[⟨⟨2, 2, 2, 2, 2, 2, 0⟩, 1, ','⟩], 1⟩

/-- Expected final pass state of probing one single-field record. -/
def w2st : PassState := ⟨"a\n".toList, 1, [⟨⟨1, 1, 1, 1, 1, 1, 0⟩, 1, ','⟩]⟩

/-- Expected candidate of probing one semicolon record. -/
def w10cand : CSVprobability := ⟨⟨3, 3, 3, 3, 3, 3, 0⟩, 1, ';'⟩

/-- Expected result of probing one semicolon record. -/
def w10res : CSVProbeResult := ⟨[w10cand], 1⟩

/-! ## The claims -/

/-- C1: for every input stream, the candidate list of the returned probe
result holds exactly the configured delimiters whose trial parsed at least
one record (in multiset terms, delimiters with an empty trial sample are
dropped), and the surviving candidates are ordered ascending by
coefficient of variation Stddev/Mean of their field-count distribution. -/
theorem probe_candidates_exact_and_sorted_by_cv (p : CSVProber) (src : Source)
    (res : CSVProbeResult) (h : Probe p src = some (.ok res)) :
    (res.CSVprobability.map (fun c => c.Delimiter)).Perm
      ((p.Delimiters.enum.filter
        (fun x => trialSample p src x.1 x.2 ≠ [])).map Prod.snd) ∧
    res.CSVprobability.Pairwise (fun a c => cv a ≤ cv c) := by
  obtain ⟨st, hps, hsort, hAL⟩ := Probe_ok h
  have hmem : ∀ c ∈ st.prob, 1 ≤ c.Mean ∧ 0 ≤ c.Stddevsq := by
    obtain ⟨b, ds⟩ := p
    cases ds with
    | nil =>
      rw [probeState_nil_inv hps]
      intro c hc
      simp at hc
    | cons d ds =>
      intro c hc
      obtain ⟨sample, hne, h1, -, hcs⟩ := probeState_mem hps c hc
      exact probe_sample_facts sample hne h1 hcs
  constructor
  · rw [hsort]
    refine ((List.perm_insertionSort cvLe st.prob).map _).trans ?_
    obtain ⟨b, ds⟩ := p
    cases ds with
    | nil =>
      rw [probeState_nil_inv hps]
      simp
    | cons d ds =>
      rw [probeState_delims hps]
  · rw [hsort]
    have hsorted : List.Pairwise cvLe (st.prob.insertionSort cvLe) :=
      List.sorted_insertionSort cvLe st.prob
    refine hsorted.imp_of_mem ?_
    intro a c ha hc hle
    have ha2 := hmem a ((List.perm_insertionSort cvLe st.prob).mem_iff.mp ha)
    have hc2 := hmem c ((List.perm_insertionSort cvLe st.prob).mem_iff.mp hc)
    exact cv_le_of_cvLe ha2.1 ha2.2 hc2.1 hc2.2 hle

/-- C1 witness: the theorem applied to a concrete one-record run. -/
theorem probe_candidates_exact_and_sorted_by_cv_witness :
    ((w1res.CSVprobability.map (fun c => c.Delimiter)).Perm
      (((⟨200, [',']⟩ : CSVProber).Delimiters.enum.filter
        (fun x => trialSample ⟨200, [',']⟩ ⟨"a,b\n".toList, false⟩ x.1 x.2
          ≠ [])).map Prod.snd)) ∧
    w1res.CSVprobability.Pairwise (fun a c => cv a ≤ cv c) :=
  probe_candidates_exact_and_sorted_by_cv ⟨200, [',']⟩
    ⟨"a,b\n".toList, false⟩ w1res (by with_unfolding_all rfl)

/-- C2 counterexample: with zero candidate delimiters the capture buffer
stays empty, so replaying it recovers zero records although a direct parse
of the original input produces one: the claim fails for a sequence of
N = 0 delimiters. -/
theorem probe_replay_count_without_pass :
    probeState ⟨200, []⟩ ⟨"a\n".toList, false⟩ = some (.ok ⟨[], 200, []⟩) ∧
    recoverableCount [] = 0 ∧
    directRecordCount ("a\n".toList) = 1 ∧
    recoverableCount [] ≠ directRecordCount ("a\n".toList) :=
  ⟨rfl, rfl, rfl, by decide⟩

/-- C2 amended: with at least one candidate delimiter and a positive
record budget, whenever an error-free probe run completes, the capture
buffer after all passes holds exactly the original bytes, so the record
count recoverable from it equals the record count of a single direct
parse of the original input.  With a zero budget the first pass performs
no read, so the buffer stays empty and the counts can differ. -/
theorem probe_replay_preserves_bytes (p : CSVProber) (src : Source)
    (st : PassState) (hs : src.srcErr = false) (hne : p.Delimiters ≠ [])
    (hb : p.RecordstoProbe ≠ 0) (h : probeState p src = some (.ok st)) :
    st.buf = src.data ∧ recoverableCount st.buf = directRecordCount src.data := by
  obtain ⟨hbuf, -⟩ := probeState_ok_buf_budget hne h
  rw [if_neg hb] at hbuf
  exact ⟨hbuf, by rw [hbuf]; rfl⟩

/-- C2 witness: the amended theorem applied to a concrete run. -/
theorem probe_replay_preserves_bytes_witness :
    w2st.buf = "a\n".toList ∧
    recoverableCount w2st.buf = directRecordCount ("a\n".toList) :=
  probe_replay_preserves_bytes ⟨200, [',']⟩ ⟨"a\n".toList, false⟩ w2st rfl
    (by decide) (by decide) (by with_unfolding_all rfl)

/-- C3 counterexample: on the six-element sample 1..6 the code reads the
upper quartile at index length/4*3 = 3 of the sorted sample, yielding 4,
whereas the claimed index length*3/4 = 4 holds 5. -/
theorem genstatdata_uq_index_mismatch :
    (genstatdata [1, 2, 3, 4, 5, 6]).UQ = 4 ∧
    (([1, 2, 3, 4, 5, 6] : List ℤ).insertionSort (· ≤ ·)).getD
      (([1, 2, 3, 4, 5, 6] : List ℤ).length * 3 / 4) 0 = 5 ∧
    (genstatdata [1, 2, 3, 4, 5, 6]).UQ ≠
      (([1, 2, 3, 4, 5, 6] : List ℤ).insertionSort (· ≤ ·)).getD
        (([1, 2, 3, 4, 5, 6] : List ℤ).length * 3 / 4) 0 :=
  ⟨by decide, by decide, by decide⟩

/-- C3 amended: for every nonempty sample, the lower quartile, median and
upper quartile are the elements of the ascending-sorted sample at the
integer-division index positions length/4, length/2 and length/4*3 (the
code multiplies after dividing, unlike the claimed length*3/4). -/
theorem genstatdata_quartile_indices (data l2 : List ℤ) (hne : data ≠ [])
    (hp : l2.Perm data) (hs : l2.Sorted (· ≤ ·)) :
    (genstatdata data).LQ = l2.getD (data.length / 4) 0 ∧
    (genstatdata data).Median = l2.getD (data.length / 2) 0 ∧
    (genstatdata data).UQ = l2.getD (data.length / 4 * 3) 0 := by
  obtain rfl := sorted_perm_eq_sort data l2 hp hs
  exact ⟨genstatdata_LQ_eq data, genstatdata_Median_eq data,
    genstatdata_UQ_eq data⟩

/-- C3 witness: the amended theorem applied to a concrete sample. -/
theorem genstatdata_quartile_indices_witness :
    (genstatdata [5, 1, 2, 9, 4, 3]).LQ =
      ([1, 2, 3, 4, 5, 9] : List ℤ).getD (([5, 1, 2, 9, 4, 3] : List ℤ).length / 4) 0 ∧
    (genstatdata [5, 1, 2, 9, 4, 3]).Median =
      ([1, 2, 3, 4, 5, 9] : List ℤ).getD (([5, 1, 2, 9, 4, 3] : List ℤ).length / 2) 0 ∧
    (genstatdata [5, 1, 2, 9, 4, 3]).UQ =
      ([1, 2, 3, 4, 5, 9] : List ℤ).getD
        (([5, 1, 2, 9, 4, 3] : List ℤ).length / 4 * 3) 0 :=
  genstatdata_quartile_indices [5, 1, 2, 9, 4, 3] [1, 2, 3, 4, 5, 9]
    (by decide) (by decide) (by decide)

/-- C4 counterexample: on the sample 1, 2, 9 the median is 2 but the upper
quartile lands on index 3/4*3 = 0 of the sorted sample, which is 1, so the
claimed chain Median at most UQ fails. -/
theorem genstatdata_chain_violation :
    (genstatdata [1, 2, 9]).Median = 2 ∧ (genstatdata [1, 2, 9]).UQ = 1 ∧
    ¬((genstatdata [1, 2, 9]).Median ≤ (genstatdata [1, 2, 9]).UQ) := by
  refine ⟨by decide, by decide, by decide⟩

/-- C4 amended: for every nonempty sample the computed Min and Max are the
true minimum and maximum, and the chain Min, LQ, Median, UQ, Max holds for
samples of length one or at least four (it fails exactly at lengths two
and three, where the upper-quartile index length/4*3 collapses to 0). -/
theorem genstatdata_minmax_and_chain (data : List ℤ) (h : data ≠ []) :
    ((genstatdata data).Min ∈ data ∧ ∀ x ∈ data, (genstatdata data).Min ≤ x) ∧
    ((genstatdata data).Max ∈ data ∧ ∀ x ∈ data, x ≤ (genstatdata data).Max) ∧
    (data.length = 1 ∨ 4 ≤ data.length →
      (genstatdata data).Min ≤ (genstatdata data).LQ ∧
      (genstatdata data).LQ ≤ (genstatdata data).Median ∧
      (genstatdata data).Median ≤ (genstatdata data).UQ ∧
      (genstatdata data).UQ ≤ (genstatdata data).Max) :=
  ⟨genstatdata_min_spec data h, genstatdata_max_spec data h,
    genstatdata_chain data h⟩

/-- C4 witness: the amended theorem applied to a concrete sample of
length four. -/
theorem genstatdata_minmax_and_chain_witness :
    (genstatdata [4, 1, 3, 2]).Min ∈ ([4, 1, 3, 2] : List ℤ) ∧
    (genstatdata [4, 1, 3, 2]).Min ≤ (genstatdata [4, 1, 3, 2]).LQ ∧
    (genstatdata [4, 1, 3, 2]).Median ≤ (genstatdata [4, 1, 3, 2]).UQ :=
  ⟨(genstatdata_minmax_and_chain [4, 1, 3, 2] (by decide)).1.1,
    ((genstatdata_minmax_and_chain [4, 1, 3, 2] (by decide)).2.2
      (by decide)).1,
    ((genstatdata_minmax_and_chain [4, 1, 3, 2] (by decide)).2.2
      (by decide)).2.2.1⟩

/-- C5: on a nonempty stream with no newline probed with two delimiters
the probe never returns (the second pass reads the self-teeing capture
buffer as an endless newline-free cyclic stream), although the stream
contains one record, well below the budget; the model returns none on the
failing input. -/
theorem probe_diverges_without_newline :
    Probe ⟨200, [',', ';']⟩ ⟨"abc".toList, false⟩ = none ∧
    min 200 (availableRecords ⟨"abc".toList, false⟩) = 1 := by
  refine ⟨rfl, by decide⟩

/-- C6: Probe propagates an error exactly when the source terminates with
a non-end-of-stream read error and the first pass actually reads past the
available records (at least one delimiter and fewer complete records than
the budget); the error return carries no probe result by construction, a
malformed record is skipped without aborting and without extending the
sample, and end-of-stream merely ends the trial early (first conjunct,
negative direction). -/
theorem probe_error_characterization (p : CSVProber) (src : Source) :
    ((∃ e, Probe p src = some (.error e)) ↔
      src.srcErr = true ∧ p.Delimiters ≠ [] ∧
        (completeRecords src.data).length < p.RecordstoProbe) ∧
    (∀ (b : ℕ) (outs : List ReadOutcome) (term : Bool),
      trialLoop (b + 1) (.malformed :: outs) term =
        (trialLoop b outs term).map (fun r => (r.1, r.2 + 1))) := by
  constructor
  · rw [Probe_error_iff]
    obtain ⟨b, ds⟩ := p
    cases ds with
    | nil =>
      rw [probeState_nil]
      constructor
      · intro habs
        exact absurd habs (by simp)
      · rintro ⟨-, hne, -⟩
        exact absurd rfl hne
    | cons d ds =>
      rw [probeState_cons]
      by_cases herr : src.srcErr = true ∧ availableRecords src < b
      · rw [if_pos herr]
        constructor
        · intro
          refine ⟨herr.1, by simp, ?_⟩
          have h2 := herr.2
          simp only [availableRecords, herr.1, if_true] at h2
          exact h2
        · intro
          rfl
      · rw [if_neg herr]
        constructor
        · intro habs
          exfalso
          revert habs
          split <;> simp
        · rintro ⟨hse, -, hlt⟩
          exact absurd ⟨hse, by simpa [availableRecords, hse] using hlt⟩ herr
  · intro b outs term
    simp only [trialLoop]
    cases h : trialLoop b outs term with
    | ok r => obtain ⟨s, b2⟩ := r; simp [Except.map]
    | error e => simp [Except.map]

/-- C7: probing fifty uniform records of four comma-separated fields with
the candidates comma and semicolon yields the comma candidate first, with
Min = Max = Mean = 4 and standard deviation zero. -/
theorem probe_uniform_csv_ranks_comma_first :
    Probe ⟨200, [',', ';']⟩ ⟨uniformInput, false⟩ =
      some (.ok ⟨[uniComma, uniSemi], 50⟩) ∧
    uniComma.Delimiter = ',' ∧ uniComma.Min = 4 ∧ uniComma.Max = 4 ∧
    uniComma.Mean = 4 ∧ uniComma.tostatresults.Stddev = 0 := by
  refine ⟨by with_unfolding_all rfl, rfl, rfl, rfl, rfl, ?_⟩
  show Real.sqrt ((0 : ℚ) : ℝ) = 0
  rw [Rat.cast_zero, Real.sqrt_zero]

/-- C8: for every nonempty sample the variance term passed to the square
root is nonnegative, hence the standard deviation is nonnegative, and a
single-element sample has standard deviation exactly zero. -/
theorem genstatdata_stddev_nonneg (data : List ℤ) (h : data ≠ []) :
    0 ≤ (genstatdata data).Stddevsq ∧ 0 ≤ (genstatdata data).Stddev ∧
    (data.length = 1 → (genstatdata data).Stddev = 0) := by
  refine ⟨genstatdata_var_nonneg data h, Real.sqrt_nonneg _, ?_⟩
  intro h1
  obtain ⟨x, rfl⟩ := List.length_eq_one.mp h1
  show Real.sqrt ((genstatdata [x]).Stddevsq : ℝ) = 0
  rw [genstatdata_single_var x, Rat.cast_zero, Real.sqrt_zero]

/-- C8 witness: the theorem applied to a concrete singleton sample. -/
theorem genstatdata_stddev_nonneg_witness :
    0 ≤ (genstatdata [3]).Stddevsq ∧ 0 ≤ (genstatdata [3]).Stddev ∧
    (([3] : List ℤ).length = 1 → (genstatdata [3]).Stddev = 0) :=
  genstatdata_stddev_nonneg [3] (by decide)

/-- C9: with an empty delimiter list, Probe runs no pass at all: nothing
is read from the source (the capture buffer stays empty), the candidate
list is empty and ActualLines is the configured budget, not zero. -/
theorem probe_empty_delimiters (b : ℕ) (src : Source) :
    probeState ⟨b, []⟩ src = some (.ok ⟨[], b, []⟩) ∧
    Probe ⟨b, []⟩ src = some (.ok ⟨[], b⟩) :=
  ⟨rfl, rfl⟩

/-- C10: every candidate of a successful probe satisfies 1 at most
Parsedrecords at most ActualLines and has mean field count at least one,
so the coefficient-of-variation comparison never divides by zero. -/
theorem probe_candidates_invariants (p : CSVProber) (src : Source)
    (res : CSVProbeResult) (h : Probe p src = some (.ok res)) :
    ∀ c ∈ res.CSVprobability,
      1 ≤ c.Parsedrecords ∧ c.Parsedrecords ≤ res.ActualLines ∧ 1 ≤ c.Mean := by
  obtain ⟨st, hps, hsort, hAL⟩ := Probe_ok h
  intro c hc
  rw [hsort] at hc
  have hc2 : c ∈ st.prob :=
    (List.perm_insertionSort cvLe st.prob).mem_iff.mp hc
  obtain ⟨b, ds⟩ := p
  cases ds with
  | nil =>
    rw [probeState_nil_inv hps] at hc2
    simp at hc2
  | cons d ds =>
    obtain ⟨sample, hne, h1, hlen, hcs⟩ := probeState_mem hps c hc2
    have hpr : c.Parsedrecords = sample.length := by
      rw [hcs]
      rfl
    refine ⟨?_, ?_, (probe_sample_facts sample hne h1 hcs).1⟩
    · rw [hpr]
      exact List.length_pos.mpr hne
    · rw [hpr, hlen, hAL]

/-- C10 witness: the theorem applied to a concrete one-record run. -/
theorem probe_candidates_invariants_witness :
    1 ≤ w10cand.Parsedrecords ∧ w10cand.Parsedrecords ≤ w10res.ActualLines ∧
    1 ≤ w10cand.Mean :=
  probe_candidates_invariants ⟨200, [';']⟩ ⟨"x;y;z\n".toList, false⟩ w10res
    (by with_unfolding_all rfl) w10cand (by simp [w10res])

end Csvprober
